import Mathlib

/-!
# ZitMail logging module — verification of the spec against the source

Shallow embedding of `src/log.rs` and `src/utils.rs` (Rust).  File contents
are modelled as `List Char`; the asynchronous writer worker is modelled as a
sequential fold over the queue contents (the queue is a FIFO channel, and the
worker is its single consumer, so the worker observes exactly the submission
order of a single producer).
-/

namespace ZitMail

/-! ## Basic string utilities (modelling Rust `str` operations) -/

/-- One decimal digit character: `digitChar n` renders `n % 10`. -/
def digitChar (n : Nat) : Char :=
  match n % 10 with
  | 0 => '0' | 1 => '1' | 2 => '2' | 3 => '3' | 4 => '4'
  | 5 => '5' | 6 => '6' | 7 => '7' | 8 => '8' | _ => '9'

/-- Decimal digits of `n`, most significant first; `fuel`-bounded structural
recursion (`fuel = n + 1` always suffices since `n / 10 < n` for `n ≥ 10`). -/
def natDigitsAux : Nat → Nat → List Char
  | 0, _ => []
  | fuel + 1, n =>
    if n < 10 then [digitChar n]
    else natDigitsAux fuel (n / 10) ++ [digitChar (n % 10)]

/-- Decimal rendering of a natural number (Rust `format!("{}", n)`). -/
def natToStr (n : Nat) : List Char := natDigitsAux (n + 1) n

/-- Zero-pad a digit string on the left to width `w` (chrono `%02d`-style). -/
def padLeft (w : Nat) (s : List Char) : List Char :=
  List.replicate (w - s.length) '0' ++ s

/-- Split a character list on a separator character; like Rust
`str::split(sep)`, every segment is kept, including empty ones. -/
def splitOnChar (sep : Char) : List Char → List (List Char)
  | [] => [[]]
  | c :: rest =>
    if c = sep then [] :: splitOnChar sep rest
    else
      match splitOnChar sep rest with
      | [] => [[c]]
      | h :: t => (c :: h) :: t

/-- Strip one trailing carriage return, as Rust `str::lines` does per line. -/
def stripCr (l : List Char) : List Char :=
  if l.getLast? = some '\r' then l.dropLast else l

/-- Drop the final element of a list of segments when it is empty: the
segment after a trailing newline is not yielded by Rust `str::lines`. -/
def dropLastEmpty : List (List Char) → List (List Char)
  | [] => []
  | [l] => if l = [] then [] else [l]
  | l :: rest => l :: dropLastEmpty rest

/-- Rust's `BufRead::lines` / `str::lines` over a file content: split on
`'\n'`, do not yield a final empty segment, strip a trailing `'\r'` from
each line. -/
def rustLines (content : List Char) : List (List Char) :=
  (dropLastEmpty (splitOnChar '\n' content)).map stripCr

/-- Rust `slice::join("\n")`: lines interleaved with single newlines. -/
def joinNl : List (List Char) → List Char
  | [] => []
  | [l] => l
  | l :: rest => l ++ '\n' :: joinNl rest

/-- The content of a file each of whose lines is written by
`writeln!` (line followed by `'\n'`). -/
def flatten (ls : List (List Char)) : List Char :=
  ls.foldr (fun l acc => l ++ '\n' :: acc) []

/-- A string that can safely stand as one line of a log file: it contains
no newline and no carriage return. -/
def CleanLine (l : List Char) : Prop := '\n' ∉ l ∧ '\r' ∉ l

instance (l : List Char) : Decidable (CleanLine l) := by
  unfold CleanLine; infer_instance

/-! ### Lemmas about the line model -/

theorem splitOnChar_ne_nil (sep : Char) (cs : List Char) :
    splitOnChar sep cs ≠ [] := by
  cases cs with
  | nil => simp [splitOnChar]
  | cons c rest =>
    simp only [splitOnChar]
    split
    · simp
    · split <;> simp

theorem splitOnChar_append_cons (sep : Char) (l rest : List Char)
    (hl : sep ∉ l) :
    splitOnChar sep (l ++ sep :: rest) = l :: splitOnChar sep rest := by
  induction l with
  | nil => simp [splitOnChar]
  | cons c t ih =>
    have hc : c ≠ sep := fun h => hl (h ▸ List.mem_cons_self c t)
    have ht : sep ∉ t := fun h => hl (List.mem_cons_of_mem c h)
    simp only [List.cons_append, splitOnChar, if_neg hc, List.append_eq]
    rw [ih ht]

theorem stripCr_of_no_cr (l : List Char) (h : '\r' ∉ l) : stripCr l = l := by
  unfold stripCr
  rw [if_neg]
  intro heq
  obtain ⟨hne, hx⟩ := List.mem_getLast?_eq_getLast heq
  exact h (hx ▸ List.getLast_mem hne)

theorem dropLastEmpty_cons_of_ne_nil (l : List Char)
    (ls : List (List Char)) (h : ls ≠ []) :
    dropLastEmpty (l :: ls) = l :: dropLastEmpty ls := by
  cases ls with
  | nil => exact absurd rfl h
  | cons a t => rfl

/-- Reading back a fully newline-terminated file recovers its lines. -/
theorem rustLines_flatten (ls : List (List Char))
    (h : ∀ l ∈ ls, CleanLine l) : rustLines (flatten ls) = ls := by
  induction ls with
  | nil => simp [flatten, rustLines, splitOnChar, dropLastEmpty]
  | cons l t ih =>
    have hl : CleanLine l := h l (List.mem_cons_self l t)
    have ht : ∀ x ∈ t, CleanLine x := fun x hx => h x (List.mem_cons_of_mem l hx)
    have hflat : flatten (l :: t) = l ++ '\n' :: flatten t := rfl
    rw [rustLines, hflat, splitOnChar_append_cons '\n' l (flatten t) hl.1,
      dropLastEmpty_cons_of_ne_nil _ _ (splitOnChar_ne_nil '\n' (flatten t))]
    have := ih ht
    rw [rustLines] at this
    simp only [List.map_cons, this, stripCr_of_no_cr l hl.2]

/-- `join("\n") + "\n"` of a nonempty list of lines is the newline-terminated
file content holding exactly those lines. -/
theorem joinNl_append_newline (ls : List (List Char)) (h : ls ≠ []) :
    joinNl ls ++ ['\n'] = flatten ls := by
  induction ls with
  | nil => exact absurd rfl h
  | cons l t ih =>
    cases t with
    | nil => simp [joinNl, flatten]
    | cons a u =>
      have : joinNl (l :: a :: u) = l ++ '\n' :: joinNl (a :: u) := rfl
      rw [this]
      have hne : (a :: u : List (List Char)) ≠ [] := by simp
      have hflat : flatten (l :: a :: u) = l ++ '\n' :: flatten (a :: u) := rfl
      rw [hflat, ← ih hne]
      simp

/-! ## `src/utils.rs` — hex colour conversion with cache

Rust strings are UTF-8 byte buffers; `&hex[0..2]` is a byte slice that
panics when an index is out of range or not on a character boundary.  We
model a string as its character list and byte slicing through
`Char.utf8Size`. A panic is modelled as `none`. -/

/-- Total UTF-8 byte length of a character list. -/
def utf8Len (cs : List Char) : Nat := (cs.map Char.utf8Size).sum

/-- Drop the first `n` bytes of a UTF-8 string; `none` when `n` is past the
end or falls inside a character. -/
def byteDrop : List Char → Nat → Option (List Char)
  | cs, 0 => some cs
  | [], _ + 1 => none
  | c :: rest, n + 1 =>
    if c.utf8Size ≤ n + 1 then byteDrop rest (n + 1 - c.utf8Size)
    else none

/-- Take the first `n` bytes of a UTF-8 string; `none` when `n` is past the
end or falls inside a character. -/
def byteTake : List Char → Nat → Option (List Char)
  | _, 0 => some []
  | [], _ + 1 => none
  | c :: rest, n + 1 =>
    if c.utf8Size ≤ n + 1 then
      (byteTake rest (n + 1 - c.utf8Size)).map (c :: ·)
    else none

/-- Rust `&s[i..j]` (with `i ≤ j`): the characters spanning bytes `i..j`,
`none` (panic) when either index is out of range or not a boundary. -/
def byteSlice (cs : List Char) (i j : Nat) : Option (List Char) :=
  (byteDrop cs i).bind (fun t => byteTake t (j - i))

/-- Numeric value of one hexadecimal digit character, `none` otherwise
(`0-9`, `a-f`, `A-F`; Rust `char::to_digit(16)`). -/
def hexDigitVal (c : Char) : Option Nat :=
  if '0' ≤ c ∧ c ≤ '9' then some (c.toNat - '0'.toNat)
  else if 'a' ≤ c ∧ c ≤ 'f' then some (c.toNat - 'a'.toNat + 10)
  else if 'A' ≤ c ∧ c ≤ 'F' then some (c.toNat - 'A'.toNat + 10)
  else none

/-- Accumulate hexadecimal digits into a `u8` value; `none` on a non-digit
or on overflow past 255 (Rust's checked accumulation in `from_str_radix`). -/
def hexDigitsU8 : List Char → Nat → Option Nat
  | [], acc => some acc
  | c :: rest, acc =>
    match hexDigitVal c with
    | none => none
    | some d => if acc * 16 + d ≤ 255 then hexDigitsU8 rest (acc * 16 + d) else none

/-- Rust `u8::from_str_radix(s, 16)`: an optional leading `+` or `-` sign,
then at least one hexadecimal digit.  The `-` branch subtracts each digit
from zero with underflow checking, so it succeeds only when every digit is
zero. -/
def fromStrRadix16U8 (cs : List Char) : Option Nat :=
  match cs with
  | [] => none
  | c :: rest =>
    if c = '+' then (if rest = [] then none else hexDigitsU8 rest 0)
    else if c = '-' then
      (if rest = [] then none
       else if hexDigitsU8 rest 0 = some 0 then some 0 else none)
    else hexDigitsU8 (c :: rest) 0

/-- The ANSI truecolor escape `format!("\x1b[38;2;{};{};{}m", r, g, b)`. -/
def ansiEscape (r g b : Nat) : List Char :=
  '\x1b' :: '[' :: '3' :: '8' :: ';' :: '2' :: ';' ::
    (natToStr r ++ ';' :: natToStr g ++ ';' :: natToStr b ++ ['m'])

/-- The uncached computation of `hex_to_ansi` (lines 33-38 of
`utils.rs`): three byte slices of the stripped hex string, each parsed as a
`u8` in base 16; any slicing panic or parse `unwrap` panic is `none`. -/
def hexToAnsiCompute (h : List Char) : Option (List Char) :=
  (byteSlice h 0 2).bind fun s1 =>
    (byteSlice h 2 4).bind fun s2 =>
      (byteSlice h 4 6).bind fun s3 =>
        (fromStrRadix16U8 s1).bind fun r =>
          (fromStrRadix16U8 s2).bind fun g =>
            (fromStrRadix16U8 s3).map fun b => ansiEscape r g b

/-- Association-list lookup, modelling `HashMap::get`. -/
def lookupCache (cache : List (List Char × List Char)) (k : List Char) :
    Option (List Char) :=
  match cache with
  | [] => none
  | (k', v) :: rest => if k' = k then some v else lookupCache rest k

/-- `hex_to_ansi` from `utils.rs`: strip all leading `#`, consult the
cache under the key `"#" ++ stripped`, otherwise compute the escape
sequence and insert it.  The returned pair is (result, cache after the
call); `none` models a panic. -/
def hex_to_ansi (cache : List (List Char × List Char)) (hex : List Char) :
    Option (List Char × List (List Char × List Char)) :=
  let h := hex.dropWhile (· = '#')
  let key := '#' :: h
  match lookupCache cache key with
  | some v => some (v, cache)
  | none =>
    match hexToAnsiCompute h with
    | some code => some (code, (key, code) :: cache)
    | none => none

/-! ## `src/utils.rs` — `get_current_time`

`chrono`'s clock and time-zone database are external inputs; we model a
time zone as a projection from the current UTC instant to a calendar
date-time, the database (`Tz::from_str`) as a partial map from zone names,
and the local clock as the date-time `Local::now()` would render. -/

/-- A calendar date-time as far as the format string observes it. -/
structure DateTime where
  year : Nat
  month : Nat
  day : Nat
  hour : Nat
  minute : Nat

/-- `chrono` format `"%Y年%-m月%d日 %H:%M"`: zero-padded 4-digit year,
unpadded month, zero-padded day, hour and minute. -/
def formatDateTime (dt : DateTime) : List Char :=
  padLeft 4 (natToStr dt.year) ++
    ('年' :: (natToStr dt.month ++
      ('月' :: (padLeft 2 (natToStr dt.day) ++
        ('日' :: ' ' :: (padLeft 2 (natToStr dt.hour) ++
          (':' :: padLeft 2 (natToStr dt.minute))))))))

/-- `get_current_time` from `utils.rs`: resolve `time_zone` through the
zone database; on success render the current UTC instant in that zone, on
failure render the local date-time. -/
def get_current_time (tzdb : List Char → Option (Nat → DateTime))
    (utcNow : Nat) (localNow : DateTime) (time_zone : List Char) : List Char :=
  match tzdb time_zone with
  | some tz => formatDateTime (tz utcNow)
  | none => formatDateTime localNow

/-! ## `src/log.rs` — data model -/

/-- The four log levels (`enum LogLevel`). -/
inductive LogLevel
  | Debug
  | Info
  | Warning
  | Error
deriving DecidableEq

/-- `enum LogMessage`: a formatted line to persist, or the quit signal. -/
inductive LogMessage
  | Log (message : List Char)
  | Quit
deriving DecidableEq

/-- `struct LoggerConfig` (immutable after `build`). -/
structure LoggerConfig where
  debug : Bool
  record : Bool
  roll : Nat
  color : Bool
  time_zone : List Char
deriving DecidableEq

/-- `struct Logger`: the configuration and the producer handle; `sender`
records whether the channel sender is present (`Some`), which `build` sets
exactly when `record` is enabled. -/
structure Logger where
  config : LoggerConfig
  sender : Bool
deriving DecidableEq

/-- `struct LoggerBuilder` with the `LoggerBuilder::new()` defaults. -/
structure LoggerBuilder where
  debug : Bool := false
  record : Bool := false
  roll : Nat := 0
  color : Bool := false
  time_zone : List Char := ['A','s','i','a','/','S','h','a','n','g','h','a','i']

/-- The `Logger` value that `LoggerBuilder::build` constructs: the frozen
configuration, and a sender exactly when `record` is set. -/
def buildLogger (cfg : LoggerConfig) : Logger :=
  { config := cfg, sender := cfg.record }

/-- `OnceLock::set`: installs the value when empty (returning success),
otherwise leaves the stored value untouched and reports failure. -/
def oncelockSet (st : Option Logger) (v : Logger) : Option Logger × Bool :=
  match st with
  | none => (some v, true)
  | some old => (some old, false)

/-- One call of `LoggerBuilder::build` against the global `LOGGER` cell,
as far as the cell is concerned: the new cell state, and whether the final
`LOGGER.set(logger).unwrap()` succeeded (`false` models the panic on
double initialization). -/
def buildRun (st : Option Logger) (b : LoggerBuilder) : Option Logger × Bool :=
  oncelockSet st (buildLogger ⟨b.debug, b.record, b.roll, b.color, b.time_zone⟩)

/-! ## `src/log.rs` — the formatter (`Logger::log`) -/

/-- The localized level label used both on the console and in the file. -/
def displayLevel : LogLevel → List Char
  | .Debug => ['调', '试']
  | .Info => ['信', '息']
  | .Warning => ['警', '告']
  | .Error => ['错', '误']

/-- The ANSI reset sequence `"\x1b[0m"`. -/
def resetColor : List Char := ['\x1b', '[', '0', 'm']

/-- The persisted line `format!("|{}|{}|{}", time, display_level, message)`. -/
def persistedLine (time display_level message : List Char) : List Char :=
  '|' :: (time ++ ('|' :: (display_level ++ ('|' :: message))))

/-- `Logger::log` (lines 212-263 of `log.rs`) for one message, with the
already-formatted timestamp passed in.  `colors` stands for the
`DEBUG_COLOR`/`INFO_COLOR`/`WARNING_COLOR`/`ERROR_COLOR` constants of the
repository's `default` module (not under `src/`; per the spec they are
cached ANSI escape sequences, and their values are irrelevant here).
The first component is the console output (`none` when nothing is
printed), the second the line submitted to the queue (`none` when nothing
is sent). -/
def logFn (colors : LogLevel → List Char) (lg : Logger) (level : LogLevel)
    (message time : List Char) : Option (List Char) × Option (List Char) :=
  let should_log := match level with
    | LogLevel.Debug => lg.config.debug
    | _ => true
  if !should_log then (none, none)
  else
    let display_color := if lg.config.color then colors level else []
    let end_color := if lg.config.color then resetColor else []
    let display_level := displayLevel level
    let console :=
      if lg.config.color then
        time ++ ' ' :: display_color ++ '[' :: display_level ++ ']' :: ' ' ::
          message ++ end_color
      else
        time ++ ' ' :: '[' :: display_level ++ ']' :: ' ' :: message
    let queued :=
      if lg.config.record then
        if lg.sender then some (persistedLine time display_level message)
        else none
      else none
    (some console, queued)

/-! ## `src/log.rs` — the writer worker (lines 125-191)

The worker drains the channel in FIFO order; buffered writes are flushed
before every point at which the file is observed (the `drop(writer)`
before the roll check and the final flush), so the file is modelled as the
already-flushed content. -/

/-- The state owned by the worker thread: the log file's content and the
running write counter. -/
structure WorkerState where
  file : List Char
  counter : Nat
deriving DecidableEq

/-- The roll check (lines 146-163): read all lines of the file; when there
are more than `roll`, rewrite the file with `lines[start..].join("\n") + "\n"`
where `start = lines.len() - roll`; otherwise leave the file untouched. -/
def rollCheck (roll : Nat) (content : List Char) : List Char :=
  let lines := rustLines content
  if lines.length > roll then
    joinNl (lines.drop (lines.length - roll)) ++ ['\n']
  else content

/-- Processing one `LogMessage::Log` (lines 137-178): `writeln!` appends
the message plus a newline; only when `roll > 0` is the counter
incremented, and on every 100th write the roll check runs. -/
def workerStep (roll : Nat) (st : WorkerState) (message : List Char) :
    WorkerState :=
  let file := st.file ++ message ++ ['\n']
  if 0 < roll then
    let counter := st.counter + 1
    if counter % 100 = 0 then ⟨rollCheck roll file, counter⟩
    else ⟨file, counter⟩
  else ⟨file, st.counter⟩

/-- The worker's main loop over the queue contents: `Log` messages are
processed in order; the first `Quit` breaks the loop (a channel
disconnection behaves identically). -/
def runWorker (roll : Nat) : WorkerState → List LogMessage → WorkerState
  | st, [] => st
  | st, LogMessage.Quit :: _ => st
  | st, LogMessage.Log m :: rest => runWorker roll (workerStep roll st m) rest

/-- The lines the worker writes before quitting: every `Log` payload that
precedes the first `Quit` in the queue. -/
def logLinesUntilQuit : List LogMessage → List (List Char)
  | [] => []
  | LogMessage.Quit :: _ => []
  | LogMessage.Log m :: rest => m :: logLinesUntilQuit rest

/-! ## Lemmas: characters of formatted timestamps -/

/-- The ten decimal digit characters. -/
def digitChars : List Char :=
  ['0', '1', '2', '3', '4'] ++ ['5', '6', '7', '8', '9']

/-- Every character a formatted timestamp can contain. -/
def timeChars : List Char := digitChars ++ ['年', '月', '日', ' ', ':']

theorem digitChar_mem (n : Nat) : digitChar n ∈ digitChars := by
  unfold digitChar
  have h : n % 10 < 10 := Nat.mod_lt _ (by norm_num)
  set k := n % 10 with hk
  interval_cases k <;> decide

theorem mem_natDigitsAux {fuel n : Nat} {c : Char}
    (h : c ∈ natDigitsAux fuel n) : c ∈ digitChars := by
  induction fuel generalizing n with
  | zero => simp [natDigitsAux] at h
  | succ f ih =>
    unfold natDigitsAux at h
    split at h
    · exact (List.mem_singleton.mp h) ▸ digitChar_mem n
    · rcases List.mem_append.mp h with h1 | h2
      · exact ih h1
      · exact (List.mem_singleton.mp h2) ▸ digitChar_mem (n % 10)

theorem mem_natToStr {n : Nat} {c : Char} (h : c ∈ natToStr n) :
    c ∈ digitChars := mem_natDigitsAux h

theorem natToStr_ne_nil (n : Nat) : natToStr n ≠ [] := by
  unfold natToStr natDigitsAux
  split <;> simp

theorem mem_padLeft {w : Nat} {s : List Char} {c : Char}
    (h : c ∈ padLeft w s) : c = '0' ∨ c ∈ s := by
  rcases List.mem_append.mp h with h1 | h2
  · exact Or.inl (List.eq_of_mem_replicate h1)
  · exact Or.inr h2

theorem mem_padLeft_natToStr {w n : Nat} {c : Char}
    (h : c ∈ padLeft w (natToStr n)) : c ∈ timeChars := by
  have : c ∈ digitChars := by
    rcases mem_padLeft h with rfl | h2
    · decide
    · exact mem_natToStr h2
  exact List.mem_append_left _ this

/-- Every character of a formatted timestamp is a digit or one of the five
fixed separator characters. -/
theorem mem_formatDateTime {dt : DateTime} {c : Char}
    (h : c ∈ formatDateTime dt) : c ∈ timeChars := by
  unfold formatDateTime at h
  rcases List.mem_append.mp h with h | h
  · exact mem_padLeft_natToStr h
  rcases List.mem_cons.mp h with rfl | h
  · decide
  rcases List.mem_append.mp h with h | h
  · exact List.mem_append_left _ (mem_natToStr h)
  rcases List.mem_cons.mp h with rfl | h
  · decide
  rcases List.mem_append.mp h with h | h
  · exact mem_padLeft_natToStr h
  rcases List.mem_cons.mp h with rfl | h
  · decide
  rcases List.mem_cons.mp h with rfl | h
  · decide
  rcases List.mem_append.mp h with h | h
  · exact mem_padLeft_natToStr h
  rcases List.mem_cons.mp h with rfl | h
  · decide
  exact mem_padLeft_natToStr h

theorem formatDateTime_not_mem {dt : DateTime} {c : Char}
    (hc : c ∉ timeChars) : c ∉ formatDateTime dt :=
  fun h => hc (mem_formatDateTime h)

theorem formatDateTime_ne_nil (dt : DateTime) : formatDateTime dt ≠ [] := by
  intro h
  have : '年' ∈ formatDateTime dt := by
    unfold formatDateTime
    simp
  rw [h] at this
  exact absurd this (List.not_mem_nil _)

/-! ## Lemmas: splitting -/

theorem splitOnChar_of_not_mem {sep : Char} {cs : List Char}
    (h : sep ∉ cs) : splitOnChar sep cs = [cs] := by
  induction cs with
  | nil => rfl
  | cons c t ih =>
    have hc : c ≠ sep := fun hh => h (hh ▸ List.mem_cons_self c t)
    have ht : sep ∉ t := fun hh => h (List.mem_cons_of_mem c hh)
    simp only [splitOnChar, if_neg hc, ih ht]

theorem splitOnChar_cons_sep (sep : Char) (rest : List Char) :
    splitOnChar sep (sep :: rest) = [] :: splitOnChar sep rest := by
  simp [splitOnChar]

/-! ## Lemmas: the worker at the level of lines

`runWorkerL` is a ghost model of the worker whose file state is the list
of lines; `runWorker_flatten` proves it equivalent to the byte-level
worker as long as every submitted line is free of `'\n'` and `'\r'`. -/

/-- Line-level roll check: keep the last `roll` lines when there are more. -/
def rollCheckL (roll : Nat) (ls : List (List Char)) : List (List Char) :=
  if ls.length > roll then ls.drop (ls.length - roll) else ls

/-- Line-level worker step. -/
def workerStepL (roll : Nat) (st : List (List Char) × Nat) (m : List Char) :
    List (List Char) × Nat :=
  let f := st.1 ++ [m]
  if 0 < roll then
    let c := st.2 + 1
    if c % 100 = 0 then (rollCheckL roll f, c) else (f, c)
  else (f, st.2)

/-- Line-level worker loop. -/
def runWorkerL (roll : Nat) : List (List Char) × Nat → List LogMessage →
    List (List Char) × Nat
  | st, [] => st
  | st, LogMessage.Quit :: _ => st
  | st, LogMessage.Log m :: rest => runWorkerL roll (workerStepL roll st m) rest

theorem flatten_cons (l : List Char) (t : List (List Char)) :
    flatten (l :: t) = l ++ '\n' :: flatten t := rfl

theorem flatten_append (a b : List (List Char)) :
    flatten (a ++ b) = flatten a ++ flatten b := by
  induction a with
  | nil => rfl
  | cons l t ih =>
    rw [List.cons_append, flatten_cons, ih, flatten_cons, List.append_assoc,
      List.cons_append]

theorem rollCheck_flatten {roll : Nat} (hroll : 0 < roll)
    (ls : List (List Char)) (h : ∀ l ∈ ls, CleanLine l) :
    rollCheck roll (flatten ls) = flatten (rollCheckL roll ls) := by
  simp only [rollCheck, rollCheckL, rustLines_flatten ls h]
  split
  · rename_i hlen
    have hdroplen : (ls.drop (ls.length - roll)).length = roll := by
      rw [List.length_drop]
      omega
    have hne : ls.drop (ls.length - roll) ≠ [] := by
      intro hnil
      rw [hnil] at hdroplen
      simp at hdroplen
      omega
    exact joinNl_append_newline _ hne
  · rfl

theorem rollCheckL_sublist (roll : Nat) (ls : List (List Char)) :
    ∀ l ∈ rollCheckL roll ls, l ∈ ls := by
  intro l hl
  unfold rollCheckL at hl
  split at hl
  · exact List.mem_of_mem_drop hl
  · exact hl

theorem workerStep_flatten {roll : Nat} {m : List Char} (hm : CleanLine m)
    (ls : List (List Char)) (h : ∀ l ∈ ls, CleanLine l) (c : Nat) :
    workerStep roll ⟨flatten ls, c⟩ m =
      ⟨flatten (workerStepL roll (ls, c) m).1, (workerStepL roll (ls, c) m).2⟩ := by
  have hflat : flatten ls ++ m ++ ['\n'] = flatten (ls ++ [m]) := by
    rw [flatten_append]
    simp [flatten]
  have hclean : ∀ l ∈ ls ++ [m], CleanLine l := by
    intro l hl
    rcases List.mem_append.mp hl with h1 | h2
    · exact h l h1
    · exact (List.mem_singleton.mp h2) ▸ hm
  simp only [workerStep, workerStepL]
  split
  · rename_i hroll
    split
    · simp only [hflat, rollCheck_flatten hroll _ hclean]
    · simp only [hflat]
  · simp only [hflat]

theorem workerStepL_clean {roll : Nat} {m : List Char} (hm : CleanLine m)
    (ls : List (List Char)) (h : ∀ l ∈ ls, CleanLine l) (c : Nat) :
    ∀ l ∈ (workerStepL roll (ls, c) m).1, CleanLine l := by
  have hclean : ∀ l ∈ ls ++ [m], CleanLine l := by
    intro l hl
    rcases List.mem_append.mp hl with h1 | h2
    · exact h l h1
    · exact (List.mem_singleton.mp h2) ▸ hm
  intro l hl
  simp only [workerStepL] at hl
  split at hl
  · split at hl
    · exact hclean l (rollCheckL_sublist _ _ l hl)
    · exact hclean l hl
  · exact hclean l hl

/-- A list of clean messages. -/
def CleanMsgs (msgs : List LogMessage) : Prop :=
  ∀ m, LogMessage.Log m ∈ msgs → CleanLine m

/-- The byte-level worker simulates the line-level worker on clean input. -/
theorem runWorker_flatten {roll : Nat} (msgs : List LogMessage)
    (hmsgs : CleanMsgs msgs) (ls : List (List Char))
    (h : ∀ l ∈ ls, CleanLine l) (c : Nat) :
    runWorker roll ⟨flatten ls, c⟩ msgs =
      ⟨flatten (runWorkerL roll (ls, c) msgs).1,
        (runWorkerL roll (ls, c) msgs).2⟩ := by
  induction msgs generalizing ls c with
  | nil => rfl
  | cons msg rest ih =>
    cases msg with
    | Quit => rfl
    | Log m =>
      have hm : CleanLine m := hmsgs m (List.mem_cons_self _ _)
      have hrest : CleanMsgs rest := fun x hx => hmsgs x (List.mem_cons_of_mem _ hx)
      show runWorker roll (workerStep roll ⟨flatten ls, c⟩ m) rest = _
      rw [workerStep_flatten hm ls h c]
      have hstep := @workerStepL_clean roll m hm ls h c
      rw [ih hrest _ hstep]
      rfl

/-! ## Lemmas: the rolling length bound and the suffix property -/

theorem workerStepL_len {roll : Nat} (hroll : 0 < roll)
    (ls : List (List Char)) (c : Nat) (m : List Char)
    (h : ls.length ≤ roll + c % 100) :
    (workerStepL roll (ls, c) m).1.length ≤
      roll + (workerStepL roll (ls, c) m).2 % 100 := by
  unfold workerStepL
  simp only [if_pos hroll]
  by_cases hc : (c + 1) % 100 = 0
  · simp only [if_pos hc]
    unfold rollCheckL
    split
    · rename_i hlen
      rw [List.length_drop]
      omega
    · rename_i hlen
      simp only [List.length_append, List.length_singleton] at *
      omega
  · simp only [if_neg hc]
    simp only [List.length_append, List.length_singleton]
    have : (c + 1) % 100 = c % 100 + 1 := by omega
    omega

theorem runWorkerL_len {roll : Nat} (hroll : 0 < roll)
    (msgs : List LogMessage) (ls : List (List Char)) (c : Nat)
    (h : ls.length ≤ roll + c % 100) :
    (runWorkerL roll (ls, c) msgs).1.length ≤
      roll + (runWorkerL roll (ls, c) msgs).2 % 100 := by
  induction msgs generalizing ls c with
  | nil => exact h
  | cons msg rest ih =>
    cases msg with
    | Quit => exact h
    | Log m =>
      show (runWorkerL roll (workerStepL roll (ls, c) m) rest).1.length ≤ _
      have := workerStepL_len hroll ls c m h
      have heq : workerStepL roll (ls, c) m =
          ((workerStepL roll (ls, c) m).1, (workerStepL roll (ls, c) m).2) := rfl
      rw [heq] at this ⊢
      exact ih _ _ this

theorem runWorkerL_suffix (roll : Nat) (msgs : List LogMessage)
    (ls base : List (List Char)) (c : Nat) (h : ls <:+ base) :
    (runWorkerL roll (ls, c) msgs).1 <:+ base ++ logLinesUntilQuit msgs := by
  induction msgs generalizing ls base c with
  | nil =>
    show ls <:+ base ++ []
    simpa using h
  | cons msg rest ih =>
    cases msg with
    | Quit =>
      show ls <:+ base ++ []
      simpa using h
    | Log m =>
      show (runWorkerL roll (workerStepL roll (ls, c) m) rest).1 <:+
        base ++ (m :: logLinesUntilQuit rest)
      have happ : ls ++ [m] <:+ base ++ [m] := by
        obtain ⟨t, ht⟩ := h
        exact ⟨t, by rw [← List.append_assoc, ht]⟩
      have hstep : (workerStepL roll (ls, c) m).1 <:+ base ++ [m] := by
        simp only [workerStepL, rollCheckL]
        split
        · split
          · split
            · exact (List.drop_suffix _ _).trans happ
            · exact happ
          · exact happ
        · exact happ
      have heq : workerStepL roll (ls, c) m =
          ((workerStepL roll (ls, c) m).1, (workerStepL roll (ls, c) m).2) := rfl
      rw [heq]
      have := ih (workerStepL roll (ls, c) m).1 (base ++ [m])
        (workerStepL roll (ls, c) m).2 hstep
      simpa [List.append_assoc] using this

theorem runWorkerL_clean {roll : Nat} (msgs : List LogMessage)
    (hmsgs : CleanMsgs msgs) (ls : List (List Char))
    (h : ∀ l ∈ ls, CleanLine l) (c : Nat) :
    ∀ l ∈ (runWorkerL roll (ls, c) msgs).1, CleanLine l := by
  induction msgs generalizing ls c with
  | nil => exact h
  | cons msg rest ih =>
    cases msg with
    | Quit => exact h
    | Log m =>
      have hm : CleanLine m := hmsgs m (List.mem_cons_self _ _)
      have hrest : CleanMsgs rest := fun x hx => hmsgs x (List.mem_cons_of_mem _ hx)
      show ∀ l ∈ (runWorkerL roll (workerStepL roll (ls, c) m) rest).1, CleanLine l
      have hstep := @workerStepL_clean roll m hm ls h c
      have heq : workerStepL roll (ls, c) m =
          ((workerStepL roll (ls, c) m).1, (workerStepL roll (ls, c) m).2) := rfl
      rw [heq]
      exact ih hrest _ hstep _

theorem logLinesUntilQuit_map (msgs : List (List Char)) :
    logLinesUntilQuit (msgs.map LogMessage.Log ++ [LogMessage.Quit]) = msgs := by
  induction msgs with
  | nil => rfl
  | cons m rest ih => simpa [logLinesUntilQuit] using ih

/-! ## Lemmas: runs that never trigger a roll check -/

theorem runWorker_roll_zero (msgs : List LogMessage) (st : WorkerState) :
    runWorker 0 st msgs =
      ⟨st.file ++ flatten (logLinesUntilQuit msgs), st.counter⟩ := by
  induction msgs generalizing st with
  | nil => simp [runWorker, logLinesUntilQuit, flatten]
  | cons msg rest ih =>
    cases msg with
    | Quit => simp [runWorker, logLinesUntilQuit, flatten]
    | Log m =>
      show runWorker 0 (workerStep 0 st m) rest = _
      have hstep : workerStep 0 st m = ⟨st.file ++ m ++ ['\n'], st.counter⟩ := by
        simp [workerStep]
      rw [hstep, ih]
      simp [logLinesUntilQuit, flatten_cons, List.append_assoc]

theorem runWorker_small {roll : Nat} (hroll : 0 < roll)
    (msgs : List LogMessage) (st : WorkerState)
    (h : st.counter + (logLinesUntilQuit msgs).length < 100) :
    runWorker roll st msgs =
      ⟨st.file ++ flatten (logLinesUntilQuit msgs),
        st.counter + (logLinesUntilQuit msgs).length⟩ := by
  induction msgs generalizing st with
  | nil => simp [runWorker, logLinesUntilQuit, flatten]
  | cons msg rest ih =>
    cases msg with
    | Quit => simp [runWorker, logLinesUntilQuit, flatten]
    | Log m =>
      have hlen : (logLinesUntilQuit (LogMessage.Log m :: rest)).length =
          (logLinesUntilQuit rest).length + 1 := by
        simp [logLinesUntilQuit]
      rw [hlen] at h
      have hmod : (st.counter + 1) % 100 ≠ 0 := by omega
      show runWorker roll (workerStep roll st m) rest = _
      have hstep : workerStep roll st m =
          ⟨st.file ++ m ++ ['\n'], st.counter + 1⟩ := by
        simp only [workerStep, if_pos hroll, if_neg hmod]
      rw [hstep, ih ⟨st.file ++ m ++ ['\n'], st.counter + 1⟩ (by simpa using (by omega : st.counter + 1 + (logLinesUntilQuit rest).length < 100))]
      simp [logLinesUntilQuit, flatten_cons, List.append_assoc]
      omega

/-! ## Lemmas: UTF-8 byte slicing -/

theorem utf8Len_cons (c : Char) (rest : List Char) :
    utf8Len (c :: rest) = c.utf8Size + utf8Len rest := by
  simp [utf8Len]

theorem byteDrop_some {cs : List Char} {n : Nat} {t : List Char}
    (h : byteDrop cs n = some t) : utf8Len cs = n + utf8Len t := by
  induction cs generalizing n with
  | nil =>
    cases n with
    | zero => simp [byteDrop] at h; simp [h]
    | succ k => simp [byteDrop] at h
  | cons c rest ih =>
    cases n with
    | zero => simp [byteDrop] at h; simp [h]
    | succ k =>
      rw [byteDrop] at h
      split at h
      · rename_i hle
        have := ih h
        rw [utf8Len_cons]
        omega
      · exact absurd h (by simp)

theorem byteTake_le {cs : List Char} {n : Nat} {s : List Char}
    (h : byteTake cs n = some s) : n ≤ utf8Len cs := by
  induction cs generalizing n s with
  | nil =>
    cases n with
    | zero => simp [utf8Len]
    | succ k => simp [byteTake] at h
  | cons c rest ih =>
    cases n with
    | zero => simp
    | succ k =>
      rw [byteTake] at h
      split at h
      · rename_i hle
        rcases Option.map_eq_some'.mp h with ⟨s', hs', rfl⟩
        have := ih hs'
        rw [utf8Len_cons]
        omega
      · exact absurd h (by simp)

theorem byteSlice_le {cs : List Char} {i j : Nat} {s : List Char}
    (h : byteSlice cs i j = some s) : i + (j - i) ≤ utf8Len cs := by
  rcases Option.bind_eq_some.mp h with ⟨t, ht, hs⟩
  have h1 := byteDrop_some ht
  have h2 := byteTake_le hs
  omega

theorem hexToAnsiCompute_none_of_short {cs : List Char}
    (h : utf8Len cs < 6) : hexToAnsiCompute cs = none := by
  unfold hexToAnsiCompute
  cases h1 : byteSlice cs 0 2 with
  | none => rfl
  | some s1 =>
    cases h2 : byteSlice cs 2 4 with
    | none => rfl
    | some s2 =>
      cases h3 : byteSlice cs 4 6 with
      | none => rfl
      | some s3 =>
        have := byteSlice_le h3
        omega

theorem hexToAnsiCompute_some {cs : List Char} {v : List Char}
    (h : hexToAnsiCompute cs = some v) :
    ∃ s1 s2 s3 r g b, byteSlice cs 0 2 = some s1 ∧ byteSlice cs 2 4 = some s2 ∧
      byteSlice cs 4 6 = some s3 ∧ fromStrRadix16U8 s1 = some r ∧
      fromStrRadix16U8 s2 = some g ∧ fromStrRadix16U8 s3 = some b ∧
      v = ansiEscape r g b := by
  unfold hexToAnsiCompute at h
  rcases Option.bind_eq_some.mp h with ⟨s1, h1, h⟩
  rcases Option.bind_eq_some.mp h with ⟨s2, h2, h⟩
  rcases Option.bind_eq_some.mp h with ⟨s3, h3, h⟩
  rcases Option.bind_eq_some.mp h with ⟨r, hr, h⟩
  rcases Option.bind_eq_some.mp h with ⟨g, hg, h⟩
  rcases Option.map_eq_some'.mp h with ⟨b, hb, rfl⟩
  exact ⟨s1, s2, s3, r, g, b, h1, h2, h3, hr, hg, hb, rfl⟩

/-! ## Lemmas: hexadecimal digits -/

/-- The 22 characters `u8::from_str_radix(_, 16)` accepts as digits. -/
def hexChars : List Char :=
  ['a', 'b', 'c', 'd', 'e', 'f'] ++ ['A', 'B', 'C', 'D', 'E', 'F'] ++ digitChars

theorem hexChar_facts {c : Char} (h : c ∈ hexChars) :
    (hexDigitVal c).isSome = true ∧ (hexDigitVal c).getD 0 ≤ 15 ∧
      c.utf8Size = 1 ∧ c ≠ '+' ∧ c ≠ '-' := by
  have hall : ∀ x ∈ hexChars, (hexDigitVal x).isSome = true ∧
      (hexDigitVal x).getD 0 ≤ 15 ∧ x.utf8Size = 1 ∧ x ≠ '+' ∧ x ≠ '-' := by
    decide
  exact hall c h

theorem hexDigitsU8_pair {c1 c2 : Char} (h1 : c1 ∈ hexChars)
    (h2 : c2 ∈ hexChars) : (hexDigitsU8 [c1, c2] 0).isSome = true := by
  obtain ⟨hs1, hb1, -, -, -⟩ := hexChar_facts h1
  obtain ⟨hs2, hb2, -, -, -⟩ := hexChar_facts h2
  rcases Option.isSome_iff_exists.mp hs1 with ⟨d1, hd1⟩
  rcases Option.isSome_iff_exists.mp hs2 with ⟨d2, hd2⟩
  rw [hd1] at hb1
  rw [hd2] at hb2
  simp only [Option.getD_some] at hb1 hb2
  have e1 : 0 * 16 + d1 ≤ 255 := by omega
  have e2 : (0 * 16 + d1) * 16 + d2 ≤ 255 := by omega
  simp [hexDigitsU8, hd1, hd2, e1, e2]
  rw [if_pos (by omega : d1 ≤ 255), if_pos (by omega : d1 * 16 + d2 ≤ 255)]
  rfl

theorem fromStrRadix16U8_pair {c1 c2 : Char} (h1 : c1 ∈ hexChars)
    (h2 : c2 ∈ hexChars) : (fromStrRadix16U8 [c1, c2]).isSome = true := by
  obtain ⟨-, -, -, hp1, hm1⟩ := hexChar_facts h1
  rw [fromStrRadix16U8]
  rw [if_neg hp1, if_neg hm1]
  exact hexDigitsU8_pair h1 h2

theorem byteSlice_six {c1 c2 c3 c4 c5 c6 : Char}
    (e1 : c1.utf8Size = 1) (e2 : c2.utf8Size = 1) (e3 : c3.utf8Size = 1)
    (e4 : c4.utf8Size = 1) (e5 : c5.utf8Size = 1) (e6 : c6.utf8Size = 1) :
    byteSlice [c1, c2, c3, c4, c5, c6] 0 2 = some [c1, c2] ∧
    byteSlice [c1, c2, c3, c4, c5, c6] 2 4 = some [c3, c4] ∧
    byteSlice [c1, c2, c3, c4, c5, c6] 4 6 = some [c5, c6] := by
  refine ⟨?_, ?_, ?_⟩ <;>
    simp [byteSlice, byteDrop, byteTake, e1, e2, e3, e4, e5, e6]

theorem list_length_six {l : List Char} (h : l.length = 6) :
    ∃ c1 c2 c3 c4 c5 c6, l = [c1, c2, c3, c4, c5, c6] := by
  match l, h with
  | [c1, c2, c3, c4, c5, c6], _ => exact ⟨c1, c2, c3, c4, c5, c6, rfl⟩

/-- On six characters accepted as base-16 digits, the uncached computation
succeeds. -/
theorem hexToAnsiCompute_sixhex {h : List Char} (hlen : h.length = 6)
    (hmem : ∀ c ∈ h, c ∈ hexChars) : (hexToAnsiCompute h).isSome = true := by
  obtain ⟨c1, c2, c3, c4, c5, c6, rfl⟩ := list_length_six hlen
  have m1 : c1 ∈ hexChars := hmem c1 (by simp)
  have m2 : c2 ∈ hexChars := hmem c2 (by simp)
  have m3 : c3 ∈ hexChars := hmem c3 (by simp)
  have m4 : c4 ∈ hexChars := hmem c4 (by simp)
  have m5 : c5 ∈ hexChars := hmem c5 (by simp)
  have m6 : c6 ∈ hexChars := hmem c6 (by simp)
  obtain ⟨s1, s2, s3⟩ := byteSlice_six (hexChar_facts m1).2.2.1
    (hexChar_facts m2).2.2.1 (hexChar_facts m3).2.2.1 (hexChar_facts m4).2.2.1
    (hexChar_facts m5).2.2.1 (hexChar_facts m6).2.2.1
  rcases Option.isSome_iff_exists.mp (fromStrRadix16U8_pair m1 m2) with ⟨r, hr⟩
  rcases Option.isSome_iff_exists.mp (fromStrRadix16U8_pair m3 m4) with ⟨g, hg⟩
  rcases Option.isSome_iff_exists.mp (fromStrRadix16U8_pair m5 m6) with ⟨b, hb⟩
  unfold hexToAnsiCompute
  rw [s1, s2, s3]
  simp [hr, hg, hb]

/-! ## Lemmas: characters of the formatter output -/

theorem displayLevel_ne_nil (lvl : LogLevel) : displayLevel lvl ≠ [] := by
  cases lvl <;> decide

theorem bar_not_mem_displayLevel (lvl : LogLevel) : '|' ∉ displayLevel lvl := by
  cases lvl <;> decide

theorem esc_not_mem_displayLevel (lvl : LogLevel) :
    '\x1b' ∉ displayLevel lvl := by
  cases lvl <;> decide

theorem mem_persistedLine {time dl msg : List Char} {c : Char}
    (h : c ∈ persistedLine time dl msg) :
    c = '|' ∨ c ∈ time ∨ c ∈ dl ∨ c ∈ msg := by
  unfold persistedLine at h
  rcases List.mem_cons.mp h with rfl | h
  · exact Or.inl rfl
  rcases List.mem_append.mp h with h | h
  · exact Or.inr (Or.inl h)
  rcases List.mem_cons.mp h with rfl | h
  · exact Or.inl rfl
  rcases List.mem_append.mp h with h | h
  · exact Or.inr (Or.inr (Or.inl h))
  rcases List.mem_cons.mp h with rfl | h
  · exact Or.inl rfl
  · exact Or.inr (Or.inr (Or.inr h))

/-! ## Claims -/

set_option maxRecDepth 100000

/-- **C1**: in the worker's roll check (which runs only when `roll_limit > 0`
and the write counter is a multiple of 100), if the file's line count
strictly exceeds `roll_limit` the file is rewritten to exactly the last
`roll_limit` lines of its previous content, each followed by a newline
(`flatten`); if the line count is at most `roll_limit` the file is left
unchanged. -/
theorem roll_check_spec (roll : Nat) (content : List Char) (hroll : 0 < roll) :
    ((rustLines content).length > roll →
        rollCheck roll content =
          flatten ((rustLines content).drop ((rustLines content).length - roll))) ∧
      ((rustLines content).length ≤ roll → rollCheck roll content = content) ∧
      (∀ (st : WorkerState) (m : List Char), (st.counter + 1) % 100 = 0 →
        workerStep roll st m =
          ⟨rollCheck roll (st.file ++ m ++ ['\n']), st.counter + 1⟩) ∧
      (∀ (st : WorkerState) (m : List Char), (st.counter + 1) % 100 ≠ 0 →
        workerStep roll st m = ⟨st.file ++ m ++ ['\n'], st.counter + 1⟩) := by
  refine ⟨?_, ?_, ?_, ?_⟩
  · intro hgt
    have hdroplen :
        ((rustLines content).drop ((rustLines content).length - roll)).length =
          roll := by
      rw [List.length_drop]
      omega
    have hne :
        (rustLines content).drop ((rustLines content).length - roll) ≠ [] := by
      intro hnil
      rw [hnil] at hdroplen
      simp at hdroplen
      omega
    simp only [rollCheck, if_pos hgt]
    exact joinNl_append_newline _ hne
  · intro hle
    simp only [rollCheck]
    rw [if_neg (by omega)]
  · intro st m hc
    simp only [workerStep, if_pos hroll, if_pos hc]
  · intro st m hc
    simp only [workerStep, if_pos hroll, if_neg hc]

/-- Witness for C1 at `roll = 2` on a three-line file. -/
theorem roll_check_spec_witness :
    0 < 2 ∧ (rustLines ['a', '\n', 'b', '\n', 'c', '\n']).length > 2 ∧
      rollCheck 2 ['a', '\n', 'b', '\n', 'c', '\n'] =
        flatten ((rustLines ['a', '\n', 'b', '\n', 'c', '\n']).drop
          ((rustLines ['a', '\n', 'b', '\n', 'c', '\n']).length - 2)) :=
  ⟨by decide, by decide,
    (roll_check_spec 2 ['a', '\n', 'b', '\n', 'c', '\n'] (by decide)).1 (by decide)⟩

/-- **C2**: for every run with `roll_limit > 0` and persistence enabled in
which newline-free lines are submitted and the worker fully drains and shuts
down, the resulting file holds at most `roll_limit + 99` lines and the
retained lines are a suffix of the submitted lines (in particular, with
`roll_limit = 50` and 250 lines, at most `50 + 99`). -/
theorem roll_overshoot_bound (roll : Nat) (msgs : List (List Char))
    (hclean : ∀ m ∈ msgs, CleanLine m) (hroll : 0 < roll) :
    (rustLines (runWorker roll ⟨[], 0⟩
        (msgs.map LogMessage.Log ++ [LogMessage.Quit])).file).length ≤ roll + 99 ∧
      rustLines (runWorker roll ⟨[], 0⟩
        (msgs.map LogMessage.Log ++ [LogMessage.Quit])).file <:+ msgs := by
  have hcm : CleanMsgs (msgs.map LogMessage.Log ++ [LogMessage.Quit]) := by
    intro m hm
    rcases List.mem_append.mp hm with h1 | h2
    · rcases List.mem_map.mp h1 with ⟨x, hx, hxe⟩
      obtain rfl : x = m := by injection hxe
      exact hclean x hx
    · simp at h2
  have hnil : ∀ l ∈ ([] : List (List Char)), CleanLine l := by simp
  have hrun : runWorker roll ⟨[], 0⟩ (msgs.map LogMessage.Log ++ [LogMessage.Quit]) =
      ⟨flatten (runWorkerL roll ([], 0) (msgs.map LogMessage.Log ++ [LogMessage.Quit])).1,
        (runWorkerL roll ([], 0) (msgs.map LogMessage.Log ++ [LogMessage.Quit])).2⟩ :=
    runWorker_flatten _ hcm [] hnil 0
  have hcleanL := @runWorkerL_clean roll (msgs.map LogMessage.Log ++ [LogMessage.Quit]) hcm [] hnil 0
  rw [hrun]
  simp only
  rw [rustLines_flatten _ hcleanL]
  constructor
  · have hlen := runWorkerL_len hroll
      (msgs.map LogMessage.Log ++ [LogMessage.Quit]) [] 0 (by simp)
    have hmod : (runWorkerL roll ([], 0)
        (msgs.map LogMessage.Log ++ [LogMessage.Quit])).2 % 100 < 100 :=
      Nat.mod_lt _ (by norm_num)
    omega
  · have hsuf := runWorkerL_suffix roll
      (msgs.map LogMessage.Log ++ [LogMessage.Quit]) [] [] 0 List.nil_suffix
    simpa [logLinesUntilQuit_map] using hsuf

/-- Witness for C2: 250 newline-free lines at `roll_limit = 50`. -/
theorem roll_overshoot_bound_witness :
    (∀ m ∈ List.replicate 250 ['a'], CleanLine m) ∧ 0 < 50 ∧
      ((rustLines (runWorker 50 ⟨[], 0⟩
          ((List.replicate 250 ['a']).map LogMessage.Log ++
            [LogMessage.Quit])).file).length ≤ 50 + 99 ∧
        rustLines (runWorker 50 ⟨[], 0⟩
          ((List.replicate 250 ['a']).map LogMessage.Log ++
            [LogMessage.Quit])).file <:+ List.replicate 250 ['a']) :=
  ⟨by decide, by decide,
    roll_overshoot_bound 50 (List.replicate 250 ['a']) (by decide) (by decide)⟩

/-- **C3 counterexample**: the claim promises every line submitted before
`quit()` is present in the file afterwards, for every sequence of lines;
with `roll_limit = 1`, submitting 99 lines `"a"` and one line `"b"` ends
with a file holding only `"b"`, though `"a"` was submitted. -/
theorem shutdown_flush_cex :
    ['a'] ∈ List.replicate 99 ['a'] ++ [['b']] ∧
      rustLines (runWorker 1 ⟨[], 0⟩
        ((List.replicate 99 ['a'] ++ [['b']]).map LogMessage.Log ++
          [LogMessage.Quit])).file = [['b']] := by
  constructor
  · decide
  · decide

/-- **C3 (amended)**: every line submitted before `Quit` is written before
the worker observes `Quit`; provided no roll check trims the run — that is,
when `roll_limit = 0` or fewer than 100 lines are submitted — all submitted
lines are present in the file, in submission order, after the worker
stops. -/
theorem shutdown_flush (roll : Nat) (msgs : List (List Char))
    (hclean : ∀ m ∈ msgs, CleanLine m)
    (hsmall : roll = 0 ∨ msgs.length < 100) :
    (runWorker roll ⟨[], 0⟩ (msgs.map LogMessage.Log ++ [LogMessage.Quit])).file =
        flatten msgs ∧
      rustLines (runWorker roll ⟨[], 0⟩
        (msgs.map LogMessage.Log ++ [LogMessage.Quit])).file = msgs := by
  have key : (runWorker roll ⟨[], 0⟩
      (msgs.map LogMessage.Log ++ [LogMessage.Quit])).file = flatten msgs := by
    rcases hsmall with rfl | hlen
    · rw [runWorker_roll_zero]
      simp [logLinesUntilQuit_map]
    · by_cases hroll : 0 < roll
      · rw [runWorker_small hroll _ ⟨[], 0⟩
          (by simpa [logLinesUntilQuit_map] using hlen)]
        simp [logLinesUntilQuit_map]
      · have hz : roll = 0 := by omega
        subst hz
        rw [runWorker_roll_zero]
        simp [logLinesUntilQuit_map]
  refine ⟨key, ?_⟩
  rw [key, rustLines_flatten _ hclean]

/-- Witness for C3 (amended): two lines, `roll_limit = 7`. -/
theorem shutdown_flush_witness :
    (∀ m ∈ [['a'], ['b']], CleanLine m) ∧
      ((7 : Nat) = 0 ∨ ([['a'], ['b']] : List (List Char)).length < 100) ∧
      ((runWorker 7 ⟨[], 0⟩
          (([['a'], ['b']] : List (List Char)).map LogMessage.Log ++
            [LogMessage.Quit])).file = flatten [['a'], ['b']] ∧
        rustLines (runWorker 7 ⟨[], 0⟩
          (([['a'], ['b']] : List (List Char)).map LogMessage.Log ++
            [LogMessage.Quit])).file = [['a'], ['b']]) :=
  ⟨by decide, by decide, shutdown_flush 7 [['a'], ['b']] (by decide) (by decide)⟩

/-- The queued component of `Logger::log` is either nothing or exactly the
pipe-delimited persisted line. -/
theorem logFn_snd (colors : LogLevel → List Char) (lg : Logger)
    (lvl : LogLevel) (msg time : List Char) :
    (logFn colors lg lvl msg time).2 = none ∨
      (logFn colors lg lvl msg time).2 =
        some (persistedLine time (displayLevel lvl) msg) := by
  unfold logFn
  cases hsl : (match lvl with | LogLevel.Debug => lg.config.debug | _ => true) with
  | false => simp
  | true =>
    simp only [Bool.not_true]
    by_cases hr : lg.config.record = true <;> by_cases hs : lg.sender = true <;>
      simp [hr, hs]

/-- **C4 counterexample**: the claim says a Debug message with
`debug_enabled = true` produces both console output and a queued line; with
persistence disabled (`record = false`) the code produces console output
but queues nothing. -/
theorem level_gating_cex :
    (⟨true, false, 0, false, []⟩ : LoggerConfig).debug = true ∧
      (logFn (fun _ => []) (buildLogger ⟨true, false, 0, false, []⟩)
        LogLevel.Debug ['x'] ['T']).1.isSome = true ∧
      (logFn (fun _ => []) (buildLogger ⟨true, false, 0, false, []⟩)
        LogLevel.Debug ['x'] ['T']).2 = none := by
  decide

/-- **C4 (amended)**: a Debug message with `debug_enabled = false` produces
neither console output nor a queued line; with `debug_enabled = true` it
produces console output, and a queued line whenever persistence is enabled;
Info/Warning/Error messages always produce console output, and a queued
line whenever persistence is enabled. -/
theorem level_gating (colors : LogLevel → List Char) (cfg : LoggerConfig)
    (msg time : List Char) (lvl : LogLevel) :
    (cfg.debug = false →
        logFn colors (buildLogger cfg) LogLevel.Debug msg time = (none, none)) ∧
      (cfg.debug = true →
        (logFn colors (buildLogger cfg) LogLevel.Debug msg time).1.isSome = true ∧
          (cfg.record = true →
            (logFn colors (buildLogger cfg) LogLevel.Debug msg time).2.isSome = true)) ∧
      (lvl ≠ LogLevel.Debug →
        (logFn colors (buildLogger cfg) lvl msg time).1.isSome = true ∧
          (cfg.record = true →
            (logFn colors (buildLogger cfg) lvl msg time).2.isSome = true)) := by
  rcases cfg with ⟨d, r, ro, co, tz⟩
  refine ⟨?_, ?_, ?_⟩
  · intro hd
    subst hd
    simp [logFn, buildLogger]
  · intro hd
    subst hd
    constructor
    · simp [logFn, buildLogger]
    · intro hr
      subst hr
      simp [logFn, buildLogger]
  · intro hlvl
    constructor
    · cases lvl with
      | Debug => exact absurd rfl hlvl
      | Info => simp [logFn, buildLogger]
      | Warning => simp [logFn, buildLogger]
      | Error => simp [logFn, buildLogger]
    · intro hr
      subst hr
      cases lvl with
      | Debug => exact absurd rfl hlvl
      | Info => simp [logFn, buildLogger]
      | Warning => simp [logFn, buildLogger]
      | Error => simp [logFn, buildLogger]

/-- Witness for C4 (amended): Debug with `debug = true`, `record = true`. -/
theorem level_gating_witness :
    (⟨true, true, 0, false, []⟩ : LoggerConfig).debug = true ∧
      ((logFn (fun _ => []) (buildLogger ⟨true, true, 0, false, []⟩)
          LogLevel.Debug ['x'] ['T']).1.isSome = true ∧
        ((⟨true, true, 0, false, []⟩ : LoggerConfig).record = true →
          (logFn (fun _ => []) (buildLogger ⟨true, true, 0, false, []⟩)
            LogLevel.Debug ['x'] ['T']).2.isSome = true)) :=
  ⟨rfl, (level_gating (fun _ => []) ⟨true, true, 0, false, []⟩ ['x'] ['T']
    LogLevel.Info).2.1 rfl⟩

/-- **C5 counterexample**: the claim covers every message without `|` or
newline, but with the empty message (which contains neither) the persisted
line splits into only two non-empty fields, not three. -/
theorem format_round_trip_cex :
    ('|' ∉ ([] : List Char)) ∧ ('\n' ∉ ([] : List Char)) ∧
      ((splitOnChar '|' (persistedLine (formatDateTime ⟨2025, 7, 29, 16, 30⟩)
        (displayLevel LogLevel.Info) [])).filter (fun l => l ≠ [])).length = 2 := by
  decide

/-- **C5 (amended)**: for every *non-empty* message containing no `|` and no
newline, the persisted line, split on `|`, yields exactly the three
non-empty fields timestamp, level label, message. -/
theorem format_round_trip (dt : DateTime) (lvl : LogLevel) (msg : List Char)
    (hne : msg ≠ []) (hbar : '|' ∉ msg) (_hnl : '\n' ∉ msg) :
    (splitOnChar '|' (persistedLine (formatDateTime dt) (displayLevel lvl)
        msg)).filter (fun l => l ≠ []) =
      [formatDateTime dt, displayLevel lvl, msg] := by
  have htbar : '|' ∉ formatDateTime dt := formatDateTime_not_mem (by decide)
  have hdbar := bar_not_mem_displayLevel lvl
  have hsplit : splitOnChar '|'
      (persistedLine (formatDateTime dt) (displayLevel lvl) msg) =
        [[], formatDateTime dt, displayLevel lvl, msg] := by
    unfold persistedLine
    rw [splitOnChar_cons_sep, splitOnChar_append_cons _ _ _ htbar,
      splitOnChar_append_cons _ _ _ hdbar, splitOnChar_of_not_mem hbar]
  rw [hsplit]
  simp [List.filter, hne, formatDateTime_ne_nil dt, displayLevel_ne_nil lvl]

/-- Witness for C5 (amended): a one-character message. -/
theorem format_round_trip_witness :
    (['x'] : List Char) ≠ [] ∧ '|' ∉ (['x'] : List Char) ∧
      '\n' ∉ (['x'] : List Char) ∧
      (splitOnChar '|' (persistedLine (formatDateTime ⟨2025, 7, 29, 16, 30⟩)
          (displayLevel LogLevel.Error) ['x'])).filter (fun l => l ≠ []) =
        [formatDateTime ⟨2025, 7, 29, 16, 30⟩, displayLevel LogLevel.Error, ['x']] :=
  ⟨by decide, by decide, by decide,
    format_round_trip ⟨2025, 7, 29, 16, 30⟩ LogLevel.Error ['x'] (by decide)
      (by decide) (by decide)⟩

/-- **C6 counterexample**: the claim says the queued line never contains an
ANSI escape; a message that itself contains the escape character is queued
verbatim, escape included. -/
theorem color_noninterference_cex :
    (logFn (fun _ => []) (buildLogger ⟨false, true, 0, true, []⟩) LogLevel.Info
        ['\x1b', '[', '3', '1', 'm'] ['T']).2 =
      some (persistedLine ['T'] (displayLevel LogLevel.Info)
        ['\x1b', '[', '3', '1', 'm']) ∧
      '\x1b' ∈ persistedLine ['T'] (displayLevel LogLevel.Info)
        ['\x1b', '[', '3', '1', 'm'] := by
  decide

/-- **C6 (amended)**: the queued line is identical whether `color_enabled`
is true or false, and it contains no ANSI escape character that was not
already in the message: the colour setting only influences the console
string. -/
theorem color_noninterference (colors : LogLevel → List Char)
    (cfg : LoggerConfig) (lvl : LogLevel) (msg : List Char) (dt : DateTime) :
    (logFn colors (buildLogger {cfg with color := true}) lvl msg
        (formatDateTime dt)).2 =
      (logFn colors (buildLogger {cfg with color := false}) lvl msg
        (formatDateTime dt)).2 ∧
      ('\x1b' ∉ msg → ∀ line,
        (logFn colors (buildLogger cfg) lvl msg (formatDateTime dt)).2 =
          some line → '\x1b' ∉ line) := by
  constructor
  · rcases cfg with ⟨d, r, ro, co, tz⟩
    cases lvl <;> cases d <;> cases r <;> simp [logFn, buildLogger]
  · intro hesc line hline hmem
    rcases logFn_snd colors (buildLogger cfg) lvl msg (formatDateTime dt) with
      h | h
    · rw [h] at hline
      exact absurd hline (by simp)
    · rw [h] at hline
      obtain rfl : persistedLine (formatDateTime dt) (displayLevel lvl) msg =
          line := by injection hline
      rcases mem_persistedLine hmem with h1 | h1 | h1 | h1
      · exact absurd h1 (by decide)
      · exact formatDateTime_not_mem (by decide) h1
      · exact esc_not_mem_displayLevel lvl h1
      · exact hesc h1

/-- Witness for C6 (amended): a plain message is queued escape-free. -/
theorem color_noninterference_witness :
    ('\x1b' ∉ (['h', 'i'] : List Char)) ∧
      ((logFn (fun _ => resetColor)
          (buildLogger ⟨false, true, 0, true, []⟩) LogLevel.Warning ['h', 'i']
          (formatDateTime ⟨2025, 1, 2, 3, 4⟩)).2 =
        some (persistedLine (formatDateTime ⟨2025, 1, 2, 3, 4⟩)
          (displayLevel LogLevel.Warning) ['h', 'i']) →
        '\x1b' ∉ persistedLine (formatDateTime ⟨2025, 1, 2, 3, 4⟩)
          (displayLevel LogLevel.Warning) ['h', 'i']) :=
  ⟨by decide, (color_noninterference (fun _ => resetColor)
    ⟨false, true, 0, true, []⟩ LogLevel.Warning ['h', 'i']
    ⟨2025, 1, 2, 3, 4⟩).2 (by decide)
    (persistedLine (formatDateTime ⟨2025, 1, 2, 3, 4⟩)
      (displayLevel LogLevel.Warning) ['h', 'i'])⟩

/-- **C7**: for every time-zone string, `get_current_time` returns a
formatted, non-empty time string and never fails: a resolvable zone name is
rendered through that zone's projection of the current UTC instant, and a
resolution failure falls back silently to the local date-time. -/
theorem get_current_time_total (tzdb : List Char → Option (Nat → DateTime))
    (utcNow : Nat) (localNow : DateTime) (tz : List Char) :
    (∃ dt, get_current_time tzdb utcNow localNow tz = formatDateTime dt) ∧
      get_current_time tzdb utcNow localNow tz ≠ [] ∧
      (∀ z, tzdb tz = some z →
        get_current_time tzdb utcNow localNow tz = formatDateTime (z utcNow)) ∧
      (tzdb tz = none →
        get_current_time tzdb utcNow localNow tz = formatDateTime localNow) := by
  cases h : tzdb tz with
  | none =>
    refine ⟨⟨localNow, ?_⟩, ?_, ?_, ?_⟩ <;>
      simp [get_current_time, h, formatDateTime_ne_nil]
  | some z =>
    refine ⟨⟨z utcNow, ?_⟩, ?_, ?_, ?_⟩ <;>
      simp [get_current_time, h, formatDateTime_ne_nil]

/-- Witness for C7: an unresolvable zone name falls back to local time. -/
theorem get_current_time_total_witness :
    get_current_time (fun _ => none) 0 ⟨2024, 5, 6, 7, 8⟩ ['X'] =
      formatDateTime ⟨2024, 5, 6, 7, 8⟩ :=
  (get_current_time_total (fun _ => none) 0 ⟨2024, 5, 6, 7, 8⟩ ['X']).2.2.2 rfl

/-- **C8**: the logger is initialized at most once per process: the first
`build` installs the logger into the empty `OnceLock`, and any second
`build` fails (the modelled `unwrap` panic) while leaving the originally
installed logger in place. -/
theorem init_once (b1 b2 : LoggerBuilder) :
    (buildRun none b1).2 = true ∧
      (buildRun none b1).1 =
        some (buildLogger ⟨b1.debug, b1.record, b1.roll, b1.color, b1.time_zone⟩) ∧
      (buildRun (buildRun none b1).1 b2).2 = false ∧
      (buildRun (buildRun none b1).1 b2).1 = (buildRun none b1).1 := by
  refine ⟨rfl, rfl, rfl, rfl⟩

/-- **C9**: repeated `hex_to_ansi` lookups of the same hex value return the
identical cached escape sequence: a successful call is idempotent (second
conjunct: whenever the key is already cached, the cached value is returned
unchanged, with no re-parse of the hex digits — the computation path is
never consulted). -/
theorem ansi_cache_idempotent :
    (∀ (cache : List (List Char × List Char)) (hex v : List Char)
        (cache' : List (List Char × List Char)),
      hex_to_ansi cache hex = some (v, cache') →
        hex_to_ansi cache' hex = some (v, cache')) ∧
      (∀ (cache : List (List Char × List Char)) (hex v : List Char),
        lookupCache cache ('#' :: hex.dropWhile (· = '#')) = some v →
          hex_to_ansi cache hex = some (v, cache)) := by
  constructor
  · intro cache hex v cache' h
    simp only [hex_to_ansi] at h ⊢
    cases hl : lookupCache cache ('#' :: hex.dropWhile (· = '#')) with
    | some w =>
      rw [hl] at h
      obtain ⟨rfl, rfl⟩ : w = v ∧ cache = cache' := by
        constructor <;> [skip; skip] <;> injection h with h2 <;>
          [exact congrArg Prod.fst h2; exact congrArg Prod.snd h2]
      rw [hl]
    | none =>
      rw [hl] at h
      cases hc : hexToAnsiCompute (hex.dropWhile (· = '#')) with
      | none =>
        rw [hc] at h
        exact absurd h (by simp)
      | some code =>
        rw [hc] at h
        obtain ⟨rfl, rfl⟩ : code = v ∧
            ('#' :: hex.dropWhile (· = '#'), code) :: cache = cache' := by
          constructor <;> injection h with h2 <;>
            [exact congrArg Prod.fst h2; exact congrArg Prod.snd h2]
        have hl' : lookupCache (('#' :: hex.dropWhile (· = '#'), code) :: cache)
            ('#' :: hex.dropWhile (· = '#')) = some code := by
          simp [lookupCache]
        rw [hl']
  · intro cache hex v h
    simp only [hex_to_ansi]
    rw [h]

/-- Witness for C9: looking `"ff0000"` up a second time returns the value
cached by the first call, with the cache unchanged. -/
theorem ansi_cache_idempotent_witness :
    hex_to_ansi [(('#' :: ['f', 'f', '0', '0', '0', '0'] : List Char),
        ansiEscape 255 0 0)] ['f', 'f', '0', '0', '0', '0'] =
      some (ansiEscape 255 0 0,
        [(('#' :: ['f', 'f', '0', '0', '0', '0'] : List Char),
          ansiEscape 255 0 0)]) :=
  ansi_cache_idempotent.1 [] ['f', 'f', '0', '0', '0', '0'] (ansiEscape 255 0 0)
    [(('#' :: ['f', 'f', '0', '0', '0', '0'] : List Char), ansiEscape 255 0 0)]
    (by decide)

/-- **C10 counterexample**: the claim says an uncached input whose first
2-character group is not two hexadecimal digits makes `hex_to_ansi` fail;
but `u8::from_str_radix` accepts a leading sign, so the uncached input
`"+fffff"` — whose first group `"+f"` starts with the non-digit `'+'` —
succeeds. -/
theorem hex_to_ansi_domain_cex :
    lookupCache [] ('#' :: ['+', 'f', 'f', 'f', 'f', 'f']) = none ∧
      byteSlice ['+', 'f', 'f', 'f', 'f', 'f'] 0 2 = some ['+', 'f'] ∧
      hexDigitVal '+' = none ∧
      (hex_to_ansi [] ['+', 'f', 'f', 'f', 'f', 'f']).isSome = true := by
  decide

/-- **C10 (amended)**: `hex_to_ansi` is partial at its public interface:
for every uncached input, it fails (panics, modelled `none`) when the
stripped hex content is shorter than 6 bytes; a success implies all three
byte slices were on character boundaries and all three 2-character groups
were accepted by base-16 `u8` parsing (which admits an optional leading
sign); and it succeeds for every input of exactly 6 hexadecimal digits. -/
theorem hex_to_ansi_domain (cache : List (List Char × List Char))
    (hex : List Char) :
    (lookupCache cache ('#' :: hex.dropWhile (· = '#')) = none →
        utf8Len (hex.dropWhile (· = '#')) < 6 → hex_to_ansi cache hex = none) ∧
      (∀ v, lookupCache cache ('#' :: hex.dropWhile (· = '#')) = none →
        hex_to_ansi cache hex = some v →
        ∃ s1 s2 s3 r g b,
          byteSlice (hex.dropWhile (· = '#')) 0 2 = some s1 ∧
          byteSlice (hex.dropWhile (· = '#')) 2 4 = some s2 ∧
          byteSlice (hex.dropWhile (· = '#')) 4 6 = some s3 ∧
          fromStrRadix16U8 s1 = some r ∧ fromStrRadix16U8 s2 = some g ∧
          fromStrRadix16U8 s3 = some b) ∧
      ((hex.dropWhile (· = '#')).length = 6 →
        (∀ c ∈ hex.dropWhile (· = '#'), c ∈ hexChars) →
        (hex_to_ansi cache hex).isSome = true) := by
  refine ⟨?_, ?_, ?_⟩
  · intro hlk hshort
    simp only [hex_to_ansi]
    rw [hlk, hexToAnsiCompute_none_of_short hshort]
  · intro v hlk hsome
    simp only [hex_to_ansi] at hsome
    rw [hlk] at hsome
    cases hc : hexToAnsiCompute (hex.dropWhile (· = '#')) with
    | none =>
      rw [hc] at hsome
      exact absurd hsome (by simp)
    | some code =>
      obtain ⟨s1, s2, s3, r, g, b, h1, h2, h3, hr, hg, hb, -⟩ :=
        hexToAnsiCompute_some hc
      exact ⟨s1, s2, s3, r, g, b, h1, h2, h3, hr, hg, hb⟩
  · intro hlen hmem
    simp only [hex_to_ansi]
    cases hlk : lookupCache cache ('#' :: hex.dropWhile (· = '#')) with
    | some w => simp
    | none =>
      rcases Option.isSome_iff_exists.mp (hexToAnsiCompute_sixhex hlen hmem)
        with ⟨code, hcode⟩
      rw [hcode]
      simp

/-- Witness for C10 (amended): the 6-hex-digit input `"00ff00"` succeeds. -/
theorem hex_to_ansi_domain_witness :
    ((['0', '0', 'f', 'f', '0', '0'] : List Char).dropWhile (· = '#')).length = 6 ∧
      (hex_to_ansi [] ['0', '0', 'f', 'f', '0', '0']).isSome = true :=
  ⟨by decide, (hex_to_ansi_domain [] ['0', '0', 'f', 'f', '0', '0']).2.2
    (by decide) (by decide)⟩

end ZitMail
